import Mathlib

/-!
# Verification of `visual-levenshtein` (`src/lib.rs`)

Shallow embedding of the Rust library `visual-levenshtein`, which computes the
Levenshtein distance between two token sequences, reconstructs the raw edit
script by a backward traceback over the DP cost matrix, groups consecutive
same-kind edits, and renders them through a caller-supplied encoder.

Modelling conventions:
* Tokenization (`UnicodeSegmentation::graphemes` / `split_word_bounds`) is an
  external collaborator (spec §1); the core consumes its output as an ordered
  sequence of opaque tokens.  The embedding therefore works over token lists
  (`List String`); `Levenshtein.new` receives the already-tokenized sequences.
* The mutable `Vec<Vec<Transformation>>` matrix is modelled as a total function
  `Nat → Nat → Transformation` updated by `set_value`; all reads and writes the
  algorithms perform are within the `(n+1) × (m+1)` grid, so the function model
  agrees with the vector on every access the Rust code makes.
* Rust panics (`unimplemented!` branches, the out-of-bounds `raw[0]` access in
  `grouped_edits`, and loop non-termination) are modelled by `Option`: a panic
  or fault is `none`, a normal return is `some`.
* The `while` loops are modelled by fueled recursion; the fuel is an upper
  bound on the number of iterations the Rust loop can execute, and exhaustion
  also yields `none` (this branch is proved unreachable for the fuels used).
* `usize` arithmetic: all quantities are small non-negative counters that the
  Rust code never overflows and never decrements below zero on the executed
  paths (the `x -= 1` / `y -= 1` decrements are guarded by the cell kinds,
  which is proved below), so `Nat` with truncated subtraction is faithful.
-/

abbrev Str := String

/-- `Transformation` from the source (line 59): a matrix cell / raw edit,
carrying the cumulative cost and the token(s) involved. -/
inductive Transformation where
  | Init : Nat → Transformation
  | Equality : Nat → Str → Transformation
  | Deletion : Nat → Str → Transformation
  | Insertion : Nat → Str → Transformation
  | Substitution : Nat → Str → Str → Transformation
deriving DecidableEq, Repr

/-- `Transformation::cost` (source line 69). -/
def Transformation.cost : Transformation → Nat
  | .Init c => c
  | .Equality c _ => c
  | .Deletion c _ => c
  | .Insertion c _ => c
  | .Substitution c _ _ => c

/-- `Transformation::t` (source line 79): the numeric kind tag. -/
def Transformation.t : Transformation → Nat
  | .Init _ => 0
  | .Equality _ _ => 1
  | .Deletion _ _ => 2
  | .Insertion _ _ => 3
  | .Substitution _ _ _ => 4

/-- `Transformation::Init` recognizer (used to state the traceback invariant). -/
def Transformation.isInit : Transformation → Bool
  | .Init _ => true
  | _ => false

/-- `Edit` from the source (line 91): a grouped edit. -/
inductive Edit where
  | Equality : String → Edit
  | Deletion : String → Edit
  | Insertion : String → Edit
  | Substitution : String → String → Edit
deriving DecidableEq, Repr

/-- Kind tag of a grouped edit, numbered like `Transformation::t`. -/
def Edit.kind : Edit → Nat
  | .Equality _ => 1
  | .Deletion _ => 2
  | .Insertion _ => 3
  | .Substitution _ _ => 4

/-- `t_min_3` (source line 288).  NOTE the parameter names: the first parameter
is called `insertion` and the second `deletion`; the function prefers its
second parameter on a cost tie between the first two, and prefers its third
parameter on a tie with the first-two winner. -/
def t_min_3 (insertion deletion sub_or_eq : Transformation) : Transformation :=
  let insertion_v_deletion :=
    if insertion.cost < deletion.cost then insertion else deletion
  if insertion_v_deletion.cost < sub_or_eq.cost then insertion_v_deletion else sub_or_eq

/-- `t_delta` (source line 305). -/
def t_delta (from_cost : Nat) (origin dest : Str) : Transformation :=
  if origin = dest then Transformation.Equality from_cost dest
  else Transformation.Substitution (from_cost + 1) origin dest

/-- The matrix `Vec<Vec<Transformation>>`, as a total function on coordinates. -/
abbrev Mat := Nat → Nat → Transformation

/-- The `Levenshtein` struct (source line 99).  `x_dim`/`y_dim` are always
`origin.length + 1` / `dest.length + 1` and are kept implicit. -/
structure Levenshtein where
  origin : List Str
  dest : List Str
  matrix : Mat

/-- `Levenshtein::new` (source line 108), after external tokenization: the
matrix is filled with `Init(0)` placeholders, no computation happens. -/
def Levenshtein.new (o d : List Str) : Levenshtein :=
  { origin := o, dest := d, matrix := fun _ _ => Transformation.Init 0 }

/-- `Levenshtein::value_at` (source line 140). -/
def value_at (m : Mat) (x y : Nat) : Transformation := m x y

/-- `Levenshtein::set_value` (source line 144). -/
def set_value (m : Mat) (x y : Nat) (val : Transformation) : Mat :=
  fun a b => if a = x ∧ b = y then val else m a b

/-- `Levenshtein::initialize` (source line 148); renamed since the source name
is unavailable here.  Sets `cell(0,0) = Init(0)`, column 0 to `Deletion(x, origin[x-1])`
for `x` in `1..x_dim`, and row 0 to `Insertion(y, dest[y-1])` for `y` in `1..y_dim`. -/
def Levenshtein.initMatrix (L : Levenshtein) : Levenshtein :=
  let m0 := set_value L.matrix 0 0 (Transformation.Init 0)
  let m1 := (List.range' 1 L.origin.length).foldl
    (fun acc x => set_value acc x 0 (Transformation.Deletion x (L.origin.getD (x - 1) ""))) m0
  let m2 := (List.range' 1 L.dest.length).foldl
    (fun acc y => set_value acc 0 y (Transformation.Insertion y (L.dest.getD (y - 1) ""))) m1
  { L with matrix := m2 }

/-- Body of the inner loop of `calculate_matrix` (source lines 161-170): the
three candidate cells and the minimum-of-three selection.  The `t_min_3` call
passes `deletion` first and `insertion` second, exactly as at source line 170
(`t_min_3(&deletion, &insertion, &sub_or_eq)`). -/
def cellCalc (o d : List Str) (acc : Mat) (x y : Nat) : Transformation :=
  let deletion_cost := (value_at acc (x - 1) y).cost + 1
  let deletion := Transformation.Deletion deletion_cost (o.getD (x - 1) "")
  let insertion_cost := (value_at acc x (y - 1)).cost + 1
  let insertion := Transformation.Insertion insertion_cost (d.getD (y - 1) "")
  let sub_or_eq := t_delta ((value_at acc (x - 1) (y - 1)).cost) (o.getD (x - 1) "") (d.getD (y - 1) "")
  t_min_3 deletion insertion sub_or_eq

/-- `Levenshtein::calculate_matrix` (source line 158): fill the interior cells
row by row (`x` in `1..x_dim`, `y` in `1..y_dim`). -/
def Levenshtein.calculate_matrix (L : Levenshtein) : Levenshtein :=
  let m' := (List.range' 1 L.origin.length).foldl
    (fun accx x => (List.range' 1 L.dest.length).foldl
      (fun acc y => set_value acc x y (cellCalc L.origin L.dest acc x y)) accx)
    L.matrix
  { L with matrix := m' }

/-- `Levenshtein::distance` (source line 175): every call re-runs
initialization and matrix calculation, then reads `cell(n,m).cost`. -/
def Levenshtein.distance (L : Levenshtein) : Nat × Levenshtein :=
  let x := L.origin.length
  let y := L.dest.length
  let L' := Levenshtein.calculate_matrix (Levenshtein.initMatrix L)
  ((value_at L'.matrix x y).cost, L')

/-- The backward traceback loop of `raw_edits` (source lines 189-207), as a
fueled recursion.  Reaching an `Init` cell while `x > 0 || y > 0` is the
`unimplemented!` branch (modelled `none`); the loop exits normally when
`x = 0 && y = 0`.  The produced list is in emission (push) order, i.e. from
cell `(x,y)` backwards; `raw_edits` reverses it. -/
def traceback (mat : Mat) : Nat → Nat → Nat → Option (List Transformation)
  | 0, x, y => if x = 0 ∧ y = 0 then some [] else none
  | fuel + 1, x, y =>
    if x = 0 ∧ y = 0 then some []
    else
      let next := value_at mat x y
      match next with
      | Transformation.Insertion _ _ => (traceback mat fuel x (y - 1)).map (next :: ·)
      | Transformation.Deletion _ _ => (traceback mat fuel (x - 1) y).map (next :: ·)
      | Transformation.Equality _ _ => (traceback mat fuel (x - 1) (y - 1)).map (next :: ·)
      | Transformation.Substitution _ _ _ => (traceback mat fuel (x - 1) (y - 1)).map (next :: ·)
      | Transformation.Init _ => none

/-- `Levenshtein::raw_edits` (source line 183): recompute the matrix, walk
back from `(n, m)`, reverse the accumulator.  Fuel `n + m` bounds the loop:
each iteration of the Rust loop strictly decreases `x + y` (proved below). -/
def Levenshtein.raw_edits (L : Levenshtein) : Option (List Transformation) × Levenshtein :=
  let x := L.origin.length
  let y := L.dest.length
  let L' := Levenshtein.calculate_matrix (Levenshtein.initMatrix L)
  ((traceback L'.matrix (x + y) x y).map List.reverse, L')

/-- The per-element `match` duplicated at source lines 221-230 and 236-247:
push the token text(s) of a raw edit into the accumulators `bin` and
`sub_dest_bin`.  `Init` is the `unimplemented!` branch. -/
def pushBins (tr : Transformation) (bin sub_dest_bin : List Str) :
    Option (List Str × List Str) :=
  match tr with
  | Transformation.Equality _ e => some (bin ++ [e], sub_dest_bin)
  | Transformation.Deletion _ e => some (bin ++ [e], sub_dest_bin)
  | Transformation.Insertion _ e => some (bin ++ [e], sub_dest_bin)
  | Transformation.Substitution _ o d => some (bin ++ [o], sub_dest_bin ++ [d])
  | Transformation.Init _ => none

/-- Inner `while` of `grouped_edits` (source line 234): consume raw edits while
their kind equals `current_t`.  The index `i` is represented by the
already-dropped prefix: the argument list is `raw[i..]`. -/
def inner_while (current_t : Nat) :
    List Transformation → List Str → List Str →
    Option (List Transformation × List Str × List Str)
  | [], bin, sub_dest_bin => some ([], bin, sub_dest_bin)
  | r :: rest, bin, sub_dest_bin =>
    if r.t = current_t then
      match pushBins r bin sub_dest_bin with
      | none => none
      | some (bin', sbin') => inner_while current_t rest bin' sbin'
    else some (r :: rest, bin, sub_dest_bin)

/-- The flush `match current_t` of `grouped_edits` (source lines 251-267).
The default arm is the `unimplemented!` branch. -/
def flushRun (current_t : Nat) (bin sub_dest_bin : List Str) : Option Edit :=
  match current_t with
  | 1 => some (Edit.Equality (String.join bin))
  | 2 => some (Edit.Deletion (String.join bin))
  | 3 => some (Edit.Insertion (String.join bin))
  | 4 => some (Edit.Substitution (String.join bin) (String.join sub_dest_bin))
  | _ => none

/-- Outer `while i < raw.len()` of `grouped_edits` (source line 233), fueled.
Each iteration runs the inner while, flushes the current run, reads the next
`current_t` (`0` past the end), and clears the bins. -/
def outer_while (fuel : Nat) (current_t : Nat) (rest : List Transformation)
    (bin sub_dest_bin : List Str) (grouped : List Edit) : Option (List Edit) :=
  match fuel with
  | 0 => match rest with
    | [] => some grouped
    | _ :: _ => none
  | fuel + 1 =>
    match rest with
    | [] => some grouped
    | _ :: _ =>
      match inner_while current_t rest bin sub_dest_bin with
      | none => none
      | some (rest', bin', sbin') =>
        match flushRun current_t bin' sbin' with
        | none => none
        | some e =>
          let current_t' := match rest' with
            | r :: _ => r.t
            | [] => 0
          outer_while fuel current_t' rest' [] [] (grouped ++ [e])

/-- Core of `Levenshtein::grouped_edits` (source lines 216-274), applied to the
raw edit sequence.  The unconditional `raw[i]` read with `i = 0` at source
line 220 is an out-of-bounds access when `raw` is empty: modelled `none`.
The outer fuel `2 * raw.length + 1` bounds the outer loop iterations: each
iteration either consumes at least one raw edit or is immediately followed by
one that does. -/
def grouped_core (raw : List Transformation) : Option (List Edit) :=
  match raw with
  | [] => none
  | r0 :: rest =>
    match pushBins r0 [] [] with
    | none => none
    | some (bin, sub_dest_bin) =>
      outer_while (2 * raw.length + 1) r0.t rest bin sub_dest_bin []

/-- `Levenshtein::grouped_edits` (source line 214). -/
def Levenshtein.grouped_edits (L : Levenshtein) : Option (List Edit) × Levenshtein :=
  let p := Levenshtein.raw_edits L
  (match p.1 with
   | none => none
   | some raw => grouped_core raw, p.2)

/-- `Levenshtein::encoded_edits` (source line 277): map the encoder over the
grouped edits and join the fragments with no separator. -/
def Levenshtein.encoded_edits (L : Levenshtein) (encoder : Edit → String) :
    Option String × Levenshtein :=
  let p := Levenshtein.grouped_edits L
  ((p.1).map (fun grouped => String.join (grouped.map (fun g => encoder g))), p.2)

/-- The matrix produced for token sequences `o`, `d` by `initialize` followed by
`calculate_matrix` on a fresh instance. -/
def builtMatrix (o d : List Str) : Mat :=
  (Levenshtein.calculate_matrix (Levenshtein.initMatrix (Levenshtein.new o d))).matrix

/-- `levenshtein(o, d).distance()` on already-tokenized input. -/
def distanceOf (o d : List Str) : Nat :=
  (Levenshtein.distance (Levenshtein.new o d)).1

/-- `levenshtein(o, d).raw_edits()` on already-tokenized input. -/
def rawEditsOf (o d : List Str) : Option (List Transformation) :=
  (Levenshtein.raw_edits (Levenshtein.new o d)).1

/-- `levenshtein(o, d).grouped_edits()` on already-tokenized input. -/
def groupedEditsOf (o d : List Str) : Option (List Edit) :=
  (Levenshtein.grouped_edits (Levenshtein.new o d)).1

/-- `levenshtein(o, d).encoded_edits(encoder)` on already-tokenized input. -/
def encodedEditsOf (o d : List Str) (encoder : Edit → String) : Option String :=
  (Levenshtein.encoded_edits (Levenshtein.new o d) encoder).1

/-! ## Specification-side definitions -/

/-- Denotation of the filled matrix: the value `initialize` + `calculate_matrix`
leave at cell `(x, y)`, expressed as a recurrence.  Borders follow
`initialize` (source lines 148-156); interior cells follow the loop body of
`calculate_matrix` (source lines 161-170), including the argument order of the
`t_min_3` call. -/
def mcell (o d : List Str) : Nat → Nat → Transformation
  | 0, 0 => Transformation.Init 0
  | x + 1, 0 => Transformation.Deletion (x + 1) (o.getD x "")
  | 0, y + 1 => Transformation.Insertion (y + 1) (d.getD y "")
  | x + 1, y + 1 =>
    t_min_3
      (Transformation.Deletion ((mcell o d x (y + 1)).cost + 1) (o.getD x ""))
      (Transformation.Insertion ((mcell o d (x + 1) y).cost + 1) (d.getD y ""))
      (t_delta ((mcell o d x y).cost) (o.getD x "") (d.getD y ""))
termination_by x y => x + y

/-- Textbook Levenshtein distance with unit costs, by head recursion.
Used as a stepping stone between the matrix recurrence and the
minimum-over-edit-scripts characterization. -/
def levDist : List Str → List Str → Nat
  | [], ys => ys.length
  | x :: xs, [] => (x :: xs).length
  | x :: xs, y :: ys =>
    min (min (levDist xs (y :: ys) + 1) (levDist (x :: xs) ys + 1))
      (levDist xs ys + if x = y then 0 else 1)
termination_by u v => u.length + v.length

/-- `Aligns u v n`: there is an edit script transforming `u` into `v` with
total cost `n`, where a kept token costs 0 and an insertion, deletion or
substitution costs 1.  The minimum such `n` is the Levenshtein distance of
the spec ("minimum edit distance, unit insert/delete/substitute costs"). -/
inductive Aligns : List Str → List Str → Nat → Prop where
  | nil : Aligns [] [] 0
  | eq (s : Str) {u v : List Str} {n : Nat} : Aligns u v n → Aligns (s :: u) (s :: v) n
  | sub (a b : Str) {u v : List Str} {n : Nat} : Aligns u v n → Aligns (a :: u) (b :: v) (n + 1)
  | del (a : Str) {u v : List Str} {n : Nat} : Aligns u v n → Aligns (a :: u) v (n + 1)
  | ins (b : Str) {u v : List Str} {n : Nat} : Aligns u v n → Aligns u (b :: v) (n + 1)

/-- `k` is the minimum edit distance between `u` and `v`. -/
def IsMinEditDist (u v : List Str) (k : Nat) : Prop :=
  Aligns u v k ∧ ∀ j, Aligns u v j → k ≤ j

/-- Origin-side token of a raw edit: the token of `origin` consumed by it. -/
def originTok : Transformation → Option Str
  | Transformation.Equality _ s => some s
  | Transformation.Deletion _ s => some s
  | Transformation.Substitution _ a _ => some a
  | _ => none

/-- Dest-side token of a raw edit: the token of `dest` produced by it. -/
def destTok : Transformation → Option Str
  | Transformation.Equality _ s => some s
  | Transformation.Insertion _ s => some s
  | Transformation.Substitution _ _ b => some b
  | _ => none

/-- The token `grouped_edits` pushes into `bin` for a raw edit (the origin
token for Deletion/Substitution, the shared token for Equality, the dest
token for Insertion). -/
def binTok : Transformation → Option Str
  | Transformation.Equality _ e => some e
  | Transformation.Deletion _ e => some e
  | Transformation.Insertion _ e => some e
  | Transformation.Substitution _ o _ => some o
  | Transformation.Init _ => none

/-- The token `grouped_edits` pushes into `sub_dest_bin` (dest side of a
Substitution only). -/
def subTok : Transformation → Option Str
  | Transformation.Substitution _ _ b => some b
  | _ => none

/-- What the flush produces for a run of kind `ct` with accumulated bins, as a
total function (junk for the unreachable kinds `0` and `≥ 5`, which the code
treats as `unimplemented!`). -/
def mkEditD (ct : Nat) (bin sub_dest_bin : List Str) : Edit :=
  match ct with
  | 1 => Edit.Equality (String.join bin)
  | 2 => Edit.Deletion (String.join bin)
  | 3 => Edit.Insertion (String.join bin)
  | _ => Edit.Substitution (String.join bin) (String.join sub_dest_bin)

/-- Mathematical run-length grouping: split the raw edit list into maximal
runs of equal kind and flush each run.  `grouped_edits` computes exactly this
whenever the raw list has at least two elements (proved below). -/
def runGroups : List Transformation → List Edit
  | [] => []
  | r :: rest =>
    let run := rest.takeWhile (fun s => s.t = r.t)
    let rest' := rest.dropWhile (fun s => s.t = r.t)
    mkEditD r.t ((r :: run).filterMap binTok) ((r :: run).filterMap subTok) :: runGroups rest'
termination_by l => l.length
decreasing_by
  simp only [List.length_cons]
  exact Nat.lt_succ_of_le (List.Sublist.length_le (List.dropWhile_sublist _))

/-- Origin-side text of a grouped edit (Equality and Deletion text, the
origin side of a Substitution). -/
def originSide : Edit → String
  | Edit.Equality s => s
  | Edit.Deletion s => s
  | Edit.Insertion _ => ""
  | Edit.Substitution a _ => a

/-- Dest-side text of a grouped edit (Equality and Insertion text, the dest
side of a Substitution). -/
def destSide : Edit → String
  | Edit.Equality s => s
  | Edit.Deletion _ => ""
  | Edit.Insertion s => s
  | Edit.Substitution _ b => b

/-- Invariant of the `calculate_matrix` loops: `M` agrees with the matrix
denotation `mcell` on the borders and on every interior cell that is already
computed when row `x` has been filled up to column `j`. -/
def gridAgrees (o d : List Str) (M : Mat) (x j : Nat) : Prop :=
  ∀ a b, a ≤ o.length → b ≤ d.length →
    (a = 0 ∨ b = 0 ∨ (1 ≤ a ∧ 1 ≤ b ∧ (a < x ∨ (a = x ∧ b ≤ j)))) →
    M a b = mcell o d a b

/-! ## Lemmas about the candidate selection -/

theorem t_min_3_cost (a b c : Transformation) :
    (t_min_3 a b c).cost = min (min a.cost b.cost) c.cost := by
  simp only [t_min_3]
  split <;> split <;> omega

theorem t_min_3_cases (a b c : Transformation) :
    t_min_3 a b c = a ∨ t_min_3 a b c = b ∨ t_min_3 a b c = c := by
  simp only [t_min_3]
  split <;> split <;> tauto

theorem t_delta_cost (c : Nat) (a b : Str) :
    (t_delta c a b).cost = c + if a = b then 0 else 1 := by
  unfold t_delta
  split <;> simp [Transformation.cost]

theorem t_delta_eq_of_eq {a b : Str} (c : Nat) (h : a = b) :
    t_delta c a b = Transformation.Equality c b := by
  simp [t_delta, h]

theorem t_delta_eq_of_ne {a b : Str} (c : Nat) (h : a ≠ b) :
    t_delta c a b = Transformation.Substitution (c + 1) a b := by
  simp [t_delta, h]

/-! ## Equations for `mcell` -/

theorem mcell_zero_zero (o d : List Str) : mcell o d 0 0 = Transformation.Init 0 := by
  simp [mcell]

theorem mcell_succ_zero (o d : List Str) (x : Nat) :
    mcell o d (x + 1) 0 = Transformation.Deletion (x + 1) (o.getD x "") := by
  simp [mcell]

theorem mcell_zero_succ (o d : List Str) (y : Nat) :
    mcell o d 0 (y + 1) = Transformation.Insertion (y + 1) (d.getD y "") := by
  simp [mcell]

theorem mcell_succ_succ (o d : List Str) (x y : Nat) :
    mcell o d (x + 1) (y + 1) =
      t_min_3
        (Transformation.Deletion ((mcell o d x (y + 1)).cost + 1) (o.getD x ""))
        (Transformation.Insertion ((mcell o d (x + 1) y).cost + 1) (d.getD y ""))
        (t_delta ((mcell o d x y).cost) (o.getD x "") (d.getD y "")) := by
  rw [mcell]

theorem mcell_cost_succ_succ (o d : List Str) (x y : Nat) :
    (mcell o d (x + 1) (y + 1)).cost =
      min (min ((mcell o d x (y + 1)).cost + 1) ((mcell o d (x + 1) y).cost + 1))
        ((mcell o d x y).cost + if o.getD x "" = d.getD y "" then 0 else 1) := by
  rw [mcell_succ_succ, t_min_3_cost, t_delta_cost]
  rfl

/-! ## The imperative fill computes `mcell` -/

theorem set_value_self (m : Mat) (x y : Nat) (v : Transformation) :
    set_value m x y v x y = v := by
  simp [set_value]

theorem set_value_other (m : Mat) (x y : Nat) (v : Transformation) (a b : Nat)
    (h : ¬(a = x ∧ b = y)) : set_value m x y v a b = m a b := by
  simp only [set_value, if_neg h]

theorem foldl_set_col (f : Nat → Transformation) (k : Nat) (M : Mat) (a b : Nat) :
    ((List.range' 1 k).foldl (fun acc x => set_value acc x 0 (f x)) M) a b
      = if 1 ≤ a ∧ a ≤ k ∧ b = 0 then f a else M a b := by
  induction k with
  | zero =>
    rw [List.range'_zero, List.foldl_nil, if_neg (by omega)]
  | succ k ih =>
    rw [List.range'_concat, List.foldl_append, List.foldl_cons, List.foldl_nil]
    simp only [Nat.one_mul]
    by_cases hab : a = 1 + k ∧ b = 0
    · obtain ⟨ha, hb⟩ := hab
      subst ha; subst hb
      rw [set_value_self, if_pos (by omega)]
    · rw [set_value_other _ _ _ _ _ _ hab, ih]
      by_cases hc : 1 ≤ a ∧ a ≤ k ∧ b = 0
      · rw [if_pos hc, if_pos (by omega)]
      · rw [if_neg hc, if_neg (by omega)]

theorem foldl_set_row (g : Nat → Transformation) (k : Nat) (M : Mat) (a b : Nat) :
    ((List.range' 1 k).foldl (fun acc y => set_value acc 0 y (g y)) M) a b
      = if 1 ≤ b ∧ b ≤ k ∧ a = 0 then g b else M a b := by
  induction k with
  | zero =>
    rw [List.range'_zero, List.foldl_nil, if_neg (by omega)]
  | succ k ih =>
    rw [List.range'_concat, List.foldl_append, List.foldl_cons, List.foldl_nil]
    simp only [Nat.one_mul]
    by_cases hab : a = 0 ∧ b = 1 + k
    · obtain ⟨ha, hb⟩ := hab
      subst ha; subst hb
      rw [set_value_self, if_pos (by omega)]
    · rw [set_value_other _ _ _ _ _ _ (by tauto), ih]
      by_cases hc : 1 ≤ b ∧ b ≤ k ∧ a = 0
      · rw [if_pos hc, if_pos (by omega)]
      · rw [if_neg hc, if_neg (by omega)]

theorem initMatrix_matrix (L : Levenshtein) (a b : Nat) :
    (Levenshtein.initMatrix L).matrix a b =
      if a = 0 ∧ b = 0 then Transformation.Init 0
      else if 1 ≤ a ∧ a ≤ L.origin.length ∧ b = 0 then
        Transformation.Deletion a (L.origin.getD (a - 1) "")
      else if a = 0 ∧ 1 ≤ b ∧ b ≤ L.dest.length then
        Transformation.Insertion b (L.dest.getD (b - 1) "")
      else L.matrix a b := by
  show ((List.range' 1 L.dest.length).foldl _
    ((List.range' 1 L.origin.length).foldl _ (set_value L.matrix 0 0 (Transformation.Init 0)))) a b = _
  rw [foldl_set_row, foldl_set_col]
  by_cases h1 : a = 0 ∧ b = 0
  · obtain ⟨rfl, rfl⟩ := h1
    rw [if_neg (by omega), if_neg (by omega), set_value_self, if_pos ⟨rfl, rfl⟩]
  · rw [set_value_other _ _ _ _ _ _ h1, if_neg h1]
    by_cases h2 : 1 ≤ b ∧ b ≤ L.dest.length ∧ a = 0
    · rw [if_pos h2, if_neg (by omega), if_pos (by omega)]
    · rw [if_neg h2]
      by_cases h3 : 1 ≤ a ∧ a ≤ L.origin.length ∧ b = 0
      · rw [if_pos h3, if_pos (by omega)]
      · rw [if_neg h3, if_neg (by omega), if_neg (by omega)]

theorem initMatrix_agrees (L : Levenshtein) :
    gridAgrees L.origin L.dest ((Levenshtein.initMatrix L).matrix) 1 0 := by
  intro a b ha hb hcond
  rw [initMatrix_matrix]
  rcases hcond with rfl | rfl | ⟨h1, h2, h3⟩
  · match b with
    | 0 => rw [if_pos ⟨rfl, rfl⟩, mcell_zero_zero]
    | b + 1 =>
      rw [if_neg (by omega), if_neg (by omega), if_pos (by omega), mcell_zero_succ]
      simp
  · match a with
    | 0 => rw [if_pos ⟨rfl, rfl⟩, mcell_zero_zero]
    | a + 1 =>
      rw [if_neg (by omega), if_pos (by omega), mcell_succ_zero]
      simp
  · omega

theorem cellCalc_agrees {o d : List Str} {M : Mat} {x y : Nat}
    (hxn : x ≤ o.length) (hym : y ≤ d.length) (hx1 : 1 ≤ x) (hy1 : 1 ≤ y)
    (H : gridAgrees o d M x (y - 1)) :
    cellCalc o d M x y = mcell o d x y := by
  obtain ⟨x', rfl⟩ : ∃ x', x = x' + 1 := ⟨x - 1, by omega⟩
  obtain ⟨y', rfl⟩ : ∃ y', y = y' + 1 := ⟨y - 1, by omega⟩
  rw [mcell_succ_succ]
  unfold cellCalc value_at
  simp only [Nat.add_sub_cancel]
  rw [H x' (y' + 1) (by omega) (by omega) (by omega),
    H (x' + 1) y' (by omega) (by omega) (by omega),
    H x' y' (by omega) (by omega) (by omega)]

theorem gridAgrees_step {o d : List Str} {M : Mat} {x y : Nat}
    (hxn : x ≤ o.length) (hym : y ≤ d.length) (hx1 : 1 ≤ x) (hy1 : 1 ≤ y)
    (H : gridAgrees o d M x (y - 1)) :
    gridAgrees o d (set_value M x y (cellCalc o d M x y)) x y := by
  intro a b ha hb hcond
  by_cases hab : a = x ∧ b = y
  · obtain ⟨rfl, rfl⟩ := hab
    rw [set_value_self, cellCalc_agrees hxn hym hx1 hy1 H]
  · rw [set_value_other _ _ _ _ _ _ hab]
    exact H a b ha hb (by omega)

theorem calcRow_agrees {o d : List Str} {x : Nat} (hx1 : 1 ≤ x) (hxn : x ≤ o.length) :
    ∀ (k : Nat) (M : Mat), k ≤ d.length → gridAgrees o d M x 0 →
      gridAgrees o d
        ((List.range' 1 k).foldl (fun acc y => set_value acc x y (cellCalc o d acc x y)) M) x k := by
  intro k
  induction k with
  | zero =>
    intro M _ H
    rw [List.range'_zero, List.foldl_nil]
    exact H
  | succ k ih =>
    intro M hk H
    rw [List.range'_concat, List.foldl_append, List.foldl_cons, List.foldl_nil]
    simp only [Nat.one_mul, Nat.add_comm 1 k]
    exact gridAgrees_step hxn (by omega) hx1 (by omega)
      (by simpa using ih M (by omega) H)

theorem gridAgrees_next_row {o d : List Str} {M : Mat} {x : Nat}
    (h : gridAgrees o d M x d.length) : gridAgrees o d M (x + 1) 0 := by
  intro a b ha hb hcond
  exact h a b ha hb (by omega)

theorem calcAll_agrees {o d : List Str} :
    ∀ (k : Nat) (M : Mat), k ≤ o.length → gridAgrees o d M 1 0 →
      gridAgrees o d
        ((List.range' 1 k).foldl
          (fun accx x =>
            (List.range' 1 d.length).foldl
              (fun acc y => set_value acc x y (cellCalc o d acc x y)) accx) M)
        (k + 1) 0 := by
  intro k
  induction k with
  | zero =>
    intro M _ H
    rw [List.range'_zero, List.foldl_nil]
    exact H
  | succ k ih =>
    intro M hk H
    rw [List.range'_concat, List.foldl_append, List.foldl_cons, List.foldl_nil]
    simp only [Nat.one_mul, Nat.add_comm 1 k]
    have hfold := ih M (by omega) H
    have hrow := calcRow_agrees (show (1 : Nat) ≤ k + 1 by omega)
      (show k + 1 ≤ o.length by omega) d.length _ le_rfl hfold
    exact gridAgrees_next_row hrow

/-- After `initialize` and `calculate_matrix`, every cell of the
`(n+1) × (m+1)` grid holds its `mcell` denotation, whatever the matrix held
before. -/
theorem build_agrees (L : Levenshtein) {a b : Nat}
    (ha : a ≤ L.origin.length) (hb : b ≤ L.dest.length) :
    (Levenshtein.calculate_matrix (Levenshtein.initMatrix L)).matrix a b
      = mcell L.origin L.dest a b := by
  have := calcAll_agrees L.origin.length ((Levenshtein.initMatrix L).matrix) le_rfl
    (initMatrix_agrees L)
  exact this a b ha hb (by omega)

theorem builtMatrix_eq (o d : List Str) {a b : Nat}
    (ha : a ≤ o.length) (hb : b ≤ d.length) :
    builtMatrix o d a b = mcell o d a b :=
  build_agrees (Levenshtein.new o d) ha hb

/-! ## Frame lemmas: cells outside the grid are never written -/

theorem calcRow_offgrid {o d : List Str} {x : Nat} :
    ∀ (k : Nat) (M : Mat) (a b : Nat), a ≠ x ∨ k < b →
      ((List.range' 1 k).foldl (fun acc y => set_value acc x y (cellCalc o d acc x y)) M) a b
        = M a b := by
  intro k
  induction k with
  | zero =>
    intro M a b _
    rw [List.range'_zero, List.foldl_nil]
  | succ k ih =>
    intro M a b h
    rw [List.range'_concat, List.foldl_append, List.foldl_cons, List.foldl_nil]
    simp only [Nat.one_mul, Nat.add_comm 1 k]
    rw [set_value_other _ _ _ _ _ _ (by omega), ih M a b (by omega)]

theorem calcAll_offgrid {o d : List Str} :
    ∀ (k : Nat) (M : Mat) (a b : Nat), k < a ∨ d.length < b →
      ((List.range' 1 k).foldl
        (fun accx x =>
          (List.range' 1 d.length).foldl
            (fun acc y => set_value acc x y (cellCalc o d acc x y)) accx) M) a b
        = M a b := by
  intro k
  induction k with
  | zero =>
    intro M a b _
    rw [List.range'_zero, List.foldl_nil]
  | succ k ih =>
    intro M a b h
    rw [List.range'_concat, List.foldl_append, List.foldl_cons, List.foldl_nil]
    simp only [Nat.one_mul, Nat.add_comm 1 k]
    rw [calcRow_offgrid d.length _ a b (by omega), ih M a b (by omega)]

theorem calculate_matrix_offgrid (K : Levenshtein) {a b : Nat}
    (h : K.origin.length < a ∨ K.dest.length < b) :
    (Levenshtein.calculate_matrix K).matrix a b = K.matrix a b := by
  show ((List.range' 1 K.origin.length).foldl _ K.matrix) a b = _
  exact calcAll_offgrid K.origin.length K.matrix a b h

theorem build_offgrid (L : Levenshtein) {a b : Nat}
    (h : L.origin.length < a ∨ L.dest.length < b) :
    (Levenshtein.calculate_matrix (Levenshtein.initMatrix L)).matrix a b = L.matrix a b := by
  rw [calculate_matrix_offgrid (Levenshtein.initMatrix L) h, initMatrix_matrix]
  split_ifs with h1 h2 h3 <;> first | rfl | omega

theorem build_matrix_idem (L : Levenshtein) :
    (Levenshtein.calculate_matrix (Levenshtein.initMatrix
      (Levenshtein.calculate_matrix (Levenshtein.initMatrix L)))).matrix
      = (Levenshtein.calculate_matrix (Levenshtein.initMatrix L)).matrix := by
  funext a b
  by_cases hab : a ≤ L.origin.length ∧ b ≤ L.dest.length
  · rw [build_agrees (Levenshtein.calculate_matrix (Levenshtein.initMatrix L)) hab.1 hab.2,
      build_agrees L hab.1 hab.2]
    rfl
  · have h' : L.origin.length < a ∨ L.dest.length < b := by omega
    exact build_offgrid (Levenshtein.calculate_matrix (Levenshtein.initMatrix L)) h'

theorem Levenshtein.ext' {K L : Levenshtein} (h1 : K.origin = L.origin)
    (h2 : K.dest = L.dest) (h3 : K.matrix = L.matrix) : K = L := by
  cases K; cases L
  cases h1; cases h2; cases h3
  rfl

theorem build_idem (L : Levenshtein) :
    Levenshtein.calculate_matrix (Levenshtein.initMatrix
      (Levenshtein.calculate_matrix (Levenshtein.initMatrix L)))
      = Levenshtein.calculate_matrix (Levenshtein.initMatrix L) :=
  Levenshtein.ext' rfl rfl (build_matrix_idem L)

/-! ## `levDist` and the alignment relation -/

theorem levDist_nil_left (v : List Str) : levDist [] v = v.length := by
  simp [levDist]

theorem levDist_nil_right (u : List Str) : levDist u [] = u.length := by
  cases u <;> simp [levDist]

theorem levDist_cons_cons (x y : Str) (xs ys : List Str) :
    levDist (x :: xs) (y :: ys) =
      min (min (levDist xs (y :: ys) + 1) (levDist (x :: xs) ys + 1))
        (levDist xs ys + if x = y then 0 else 1) := by
  rw [levDist]

theorem take_reverse_getD (l : List Str) (x : Nat) (h : x < l.length) :
    (l.take (x + 1)).reverse = l.getD x "" :: (l.take x).reverse := by
  rw [List.take_succ, List.getElem?_eq_getElem h, List.getD_eq_getElem l "" h]
  simp

theorem mcell_cost_levDist (o d : List Str) :
    ∀ (N x y : Nat), x + y ≤ N → x ≤ o.length → y ≤ d.length →
      (mcell o d x y).cost = levDist ((o.take x).reverse) ((d.take y).reverse) := by
  intro N
  induction N with
  | zero =>
    intro x y h hx hy
    obtain rfl : x = 0 := by omega
    obtain rfl : y = 0 := by omega
    simp [mcell_zero_zero, Transformation.cost, levDist]
  | succ N ih =>
    intro x y h hx hy
    match x, y with
    | 0, 0 => simp [mcell_zero_zero, Transformation.cost, levDist]
    | x + 1, 0 =>
      rw [mcell_succ_zero]
      simp only [List.take_zero, List.reverse_nil, levDist_nil_right,
        List.length_reverse, List.length_take, Transformation.cost]
      omega
    | 0, y + 1 =>
      rw [mcell_zero_succ]
      simp only [List.take_zero, List.reverse_nil, levDist_nil_left,
        List.length_reverse, List.length_take, Transformation.cost]
      omega
    | x + 1, y + 1 =>
      rw [mcell_cost_succ_succ,
        ih x (y + 1) (by omega) (by omega) hy,
        ih (x + 1) y (by omega) hx (by omega),
        ih x y (by omega) (by omega) (by omega),
        take_reverse_getD o x (by omega), take_reverse_getD d y (by omega)]
      conv_rhs => rw [levDist_cons_cons]

theorem aligns_nil_left (v : List Str) : Aligns [] v v.length := by
  induction v with
  | nil => exact Aligns.nil
  | cons b v ih => exact Aligns.ins b ih

theorem aligns_nil_right (u : List Str) : Aligns u [] u.length := by
  induction u with
  | nil => exact Aligns.nil
  | cons a u ih => exact Aligns.del a ih

theorem aligns_of_levDist : ∀ (N : Nat) (u v : List Str),
    u.length + v.length ≤ N → Aligns u v (levDist u v) := by
  intro N
  induction N with
  | zero =>
    intro u v h
    have hu : u = [] := List.length_eq_zero.mp (by omega)
    have hv : v = [] := List.length_eq_zero.mp (by omega)
    subst hu; subst hv
    rw [levDist_nil_left]
    exact Aligns.nil
  | succ N ih =>
    intro u v h
    match u, v with
    | [], v =>
      rw [levDist_nil_left]
      exact aligns_nil_left v
    | x :: xs, [] =>
      rw [levDist_nil_right]
      exact aligns_nil_right _
    | x :: xs, y :: ys =>
      have h1 := ih xs (y :: ys) (by simp only [List.length_cons] at h ⊢; omega)
      have h2 := ih (x :: xs) ys (by simp only [List.length_cons] at h ⊢; omega)
      have h3 := ih xs ys (by simp only [List.length_cons] at h ⊢; omega)
      rw [levDist_cons_cons]
      rcases min_cases (min (levDist xs (y :: ys) + 1) (levDist (x :: xs) ys + 1))
        (levDist xs ys + if x = y then 0 else 1) with ⟨hm, _⟩ | ⟨hm, _⟩
      · rw [hm]
        rcases min_cases (levDist xs (y :: ys) + 1) (levDist (x :: xs) ys + 1) with
          ⟨hm2, _⟩ | ⟨hm2, _⟩
        · rw [hm2]; exact Aligns.del x h1
        · rw [hm2]; exact Aligns.ins y h2
      · rw [hm]
        by_cases hxy : x = y
        · subst hxy
          simp only [if_pos rfl, Nat.add_zero]
          exact Aligns.eq x h3
        · simp only [if_neg hxy]
          exact Aligns.sub x y h3

theorem levDist_le_of_aligns {u v : List Str} {n : Nat} (h : Aligns u v n) :
    levDist u v ≤ n := by
  induction h with
  | nil => simp [levDist]
  | eq s h ih =>
    rw [levDist_cons_cons]
    split
    · omega
    · simp_all
  | sub a b h ih =>
    rw [levDist_cons_cons]
    split <;> omega
  | del a h ih =>
    rename_i u' v' n'
    cases v' with
    | nil =>
      rw [levDist_nil_right] at ih ⊢
      simp only [List.length_cons]
      omega
    | cons y ys =>
      rw [levDist_cons_cons]
      omega
  | ins b h ih =>
    rename_i u' v' n'
    cases u' with
    | nil =>
      rw [levDist_nil_left] at ih ⊢
      simp only [List.length_cons]
      omega
    | cons x xs =>
      rw [levDist_cons_cons]
      omega

theorem aligns_snoc_eq (s : Str) {u v : List Str} {n : Nat} (h : Aligns u v n) :
    Aligns (u ++ [s]) (v ++ [s]) n := by
  induction h with
  | nil => exact Aligns.eq s Aligns.nil
  | eq t h ih => simp only [List.cons_append]; exact Aligns.eq t ih
  | sub a b h ih => simp only [List.cons_append]; exact Aligns.sub a b ih
  | del a h ih => simp only [List.cons_append]; exact Aligns.del a ih
  | ins b h ih => simp only [List.cons_append]; exact Aligns.ins b ih

theorem aligns_snoc_sub (a b : Str) {u v : List Str} {n : Nat} (h : Aligns u v n) :
    Aligns (u ++ [a]) (v ++ [b]) (n + 1) := by
  induction h with
  | nil => exact Aligns.sub a b Aligns.nil
  | eq t h ih => simp only [List.cons_append]; exact Aligns.eq t ih
  | sub c e h ih => simp only [List.cons_append]; exact Aligns.sub c e ih
  | del c h ih => simp only [List.cons_append]; exact Aligns.del c ih
  | ins c h ih => simp only [List.cons_append]; exact Aligns.ins c ih

theorem aligns_snoc_del (a : Str) {u v : List Str} {n : Nat} (h : Aligns u v n) :
    Aligns (u ++ [a]) v (n + 1) := by
  induction h with
  | nil => exact Aligns.del a Aligns.nil
  | eq t h ih => simp only [List.cons_append]; exact Aligns.eq t ih
  | sub c e h ih => simp only [List.cons_append]; exact Aligns.sub c e ih
  | del c h ih => simp only [List.cons_append]; exact Aligns.del c ih
  | ins c h ih => exact Aligns.ins c ih

theorem aligns_snoc_ins (b : Str) {u v : List Str} {n : Nat} (h : Aligns u v n) :
    Aligns u (v ++ [b]) (n + 1) := by
  induction h with
  | nil => exact Aligns.ins b Aligns.nil
  | eq t h ih => simp only [List.cons_append]; exact Aligns.eq t ih
  | sub c e h ih => simp only [List.cons_append]; exact Aligns.sub c e ih
  | del c h ih => exact Aligns.del c ih
  | ins c h ih => simp only [List.cons_append]; exact Aligns.ins c ih

theorem aligns_reverse {u v : List Str} {n : Nat} (h : Aligns u v n) :
    Aligns u.reverse v.reverse n := by
  induction h with
  | nil => exact Aligns.nil
  | eq s h ih => simp only [List.reverse_cons]; exact aligns_snoc_eq s ih
  | sub a b h ih => simp only [List.reverse_cons]; exact aligns_snoc_sub a b ih
  | del a h ih => simp only [List.reverse_cons]; exact aligns_snoc_del a ih
  | ins b h ih => simp only [List.reverse_cons]; exact aligns_snoc_ins b ih

theorem aligns_symm {u v : List Str} {n : Nat} (h : Aligns u v n) : Aligns v u n := by
  induction h with
  | nil => exact Aligns.nil
  | eq s h ih => exact Aligns.eq s ih
  | sub a b h ih => exact Aligns.sub b a ih
  | del a h ih => exact Aligns.ins a ih
  | ins b h ih => exact Aligns.del b ih

theorem aligns_comp : ∀ (N : Nat) (u v w : List Str) (n1 n2 : Nat),
    u.length + v.length + w.length ≤ N → Aligns u v n1 → Aligns v w n2 →
    ∃ k, k ≤ n1 + n2 ∧ Aligns u w k := by
  intro N
  induction N with
  | zero =>
    intro u v w n1 n2 hN h1 h2
    have hu : u = [] := List.length_eq_zero.mp (by omega)
    have hv : v = [] := List.length_eq_zero.mp (by omega)
    subst hu; subst hv
    exact ⟨n2, by omega, h2⟩
  | succ N ih =>
    intro u v w n1 n2 hN h1 h2
    cases h1 with
    | nil => exact ⟨n2, by omega, h2⟩
    | del a h1' =>
      rename_i u' n1'
      obtain ⟨k, hk, hA⟩ := ih u' v w n1' n2
        (by simp only [List.length_cons] at hN; omega) h1' h2
      exact ⟨k + 1, by omega, Aligns.del a hA⟩
    | eq s h1' =>
      rename_i u' v'
      cases h2 with
      | eq t h2' =>
        rename_i w'
        obtain ⟨k, hk, hA⟩ := ih u' v' w' n1 n2
          (by simp only [List.length_cons] at hN; omega) h1' h2'
        exact ⟨k, by omega, Aligns.eq s hA⟩
      | sub t c h2' =>
        rename_i w' n2'
        obtain ⟨k, hk, hA⟩ := ih u' v' w' n1 n2'
          (by simp only [List.length_cons] at hN; omega) h1' h2'
        exact ⟨k + 1, by omega, Aligns.sub s c hA⟩
      | del t h2' =>
        rename_i n2'
        obtain ⟨k, hk, hA⟩ := ih u' v' w n1 n2'
          (by simp only [List.length_cons] at hN; omega) h1' h2'
        exact ⟨k + 1, by omega, Aligns.del s hA⟩
      | ins c h2' =>
        rename_i w' n2'
        obtain ⟨k, hk, hA⟩ := ih (s :: u') (s :: v') w' n1 n2'
          (by simp only [List.length_cons] at hN ⊢; omega) (Aligns.eq s h1') h2'
        exact ⟨k + 1, by omega, Aligns.ins c hA⟩
    | sub a b h1' =>
      rename_i u' v' n1'
      cases h2 with
      | eq t h2' =>
        rename_i w'
        obtain ⟨k, hk, hA⟩ := ih u' v' w' n1' n2
          (by simp only [List.length_cons] at hN; omega) h1' h2'
        exact ⟨k + 1, by omega, Aligns.sub a b hA⟩
      | sub t c h2' =>
        rename_i w' n2'
        obtain ⟨k, hk, hA⟩ := ih u' v' w' n1' n2'
          (by simp only [List.length_cons] at hN; omega) h1' h2'
        exact ⟨k + 1, by omega, Aligns.sub a c hA⟩
      | del t h2' =>
        rename_i n2'
        obtain ⟨k, hk, hA⟩ := ih u' v' w n1' n2'
          (by simp only [List.length_cons] at hN; omega) h1' h2'
        exact ⟨k + 1, by omega, Aligns.del a hA⟩
      | ins c h2' =>
        rename_i w' n2'
        obtain ⟨k, hk, hA⟩ := ih (a :: u') (b :: v') w' (n1' + 1) n2'
          (by simp only [List.length_cons] at hN ⊢; omega) (Aligns.sub a b h1') h2'
        exact ⟨k + 1, by omega, Aligns.ins c hA⟩
    | ins b h1' =>
      rename_i v' n1'
      cases h2 with
      | eq t h2' =>
        rename_i w'
        obtain ⟨k, hk, hA⟩ := ih u v' w' n1' n2
          (by simp only [List.length_cons] at hN; omega) h1' h2'
        exact ⟨k + 1, by omega, Aligns.ins b hA⟩
      | sub t c h2' =>
        rename_i w' n2'
        obtain ⟨k, hk, hA⟩ := ih u v' w' n1' n2'
          (by simp only [List.length_cons] at hN; omega) h1' h2'
        exact ⟨k + 1, by omega, Aligns.ins c hA⟩
      | del t h2' =>
        rename_i n2'
        obtain ⟨k, hk, hA⟩ := ih u v' w n1' n2'
          (by simp only [List.length_cons] at hN; omega) h1' h2'
        exact ⟨k, by omega, hA⟩
      | ins c h2' =>
        rename_i w' n2'
        obtain ⟨k, hk, hA⟩ := ih u (b :: v') w' (n1' + 1) n2'
          (by simp only [List.length_cons] at hN ⊢; omega) (Aligns.ins b h1') h2'
        exact ⟨k + 1, by omega, Aligns.ins c hA⟩

theorem aligns_trans {u v w : List Str} {n1 n2 : Nat}
    (h1 : Aligns u v n1) (h2 : Aligns v w n2) : ∃ k, k ≤ n1 + n2 ∧ Aligns u w k :=
  aligns_comp (u.length + v.length + w.length) u v w n1 n2 le_rfl h1 h2

/-! ## The matrix cost is the minimum edit distance -/

theorem isMinEditDist_mcell (o d : List Str) {x y : Nat}
    (hx : x ≤ o.length) (hy : y ≤ d.length) :
    IsMinEditDist (o.take x) (d.take y) ((mcell o d x y).cost) := by
  have hc := mcell_cost_levDist o d (x + y) x y le_rfl hx hy
  constructor
  · have h1 := aligns_of_levDist ((o.take x).reverse.length + (d.take y).reverse.length)
      ((o.take x).reverse) ((d.take y).reverse) le_rfl
    rw [← hc] at h1
    have h2 := aligns_reverse h1
    simpa using h2
  · intro j hj
    have hle := levDist_le_of_aligns (aligns_reverse hj)
    omega

theorem distanceOf_eq_built (o d : List Str) :
    distanceOf o d = (builtMatrix o d o.length d.length).cost := rfl

theorem distanceOf_eq_mcell (o d : List Str) :
    distanceOf o d = (mcell o d o.length d.length).cost := by
  rw [distanceOf_eq_built, builtMatrix_eq o d le_rfl le_rfl]

theorem isMinEditDist_distanceOf (o d : List Str) :
    IsMinEditDist o d (distanceOf o d) := by
  have h := isMinEditDist_mcell o d (x := o.length) (y := d.length) le_rfl le_rfl
  rw [distanceOf_eq_mcell]
  simpa [List.take_length] using h

/-! ## The traceback walk -/

theorem mcell_interior_shape (o d : List Str) (x y : Nat) :
    (∃ c, mcell o d (x + 1) (y + 1) = Transformation.Deletion c (o.getD x "")) ∨
    (∃ c, mcell o d (x + 1) (y + 1) = Transformation.Insertion c (d.getD y "")) ∨
    (o.getD x "" = d.getD y "" ∧
      ∃ c, mcell o d (x + 1) (y + 1) = Transformation.Equality c (d.getD y "")) ∨
    (∃ c, mcell o d (x + 1) (y + 1)
      = Transformation.Substitution c (o.getD x "") (d.getD y "")) := by
  rw [mcell_succ_succ]
  rcases t_min_3_cases
      (Transformation.Deletion ((mcell o d x (y + 1)).cost + 1) (o.getD x ""))
      (Transformation.Insertion ((mcell o d (x + 1) y).cost + 1) (d.getD y ""))
      (t_delta ((mcell o d x y).cost) (o.getD x "") (d.getD y "")) with h | h | h
  · exact Or.inl ⟨_, h⟩
  · exact Or.inr (Or.inl ⟨_, h⟩)
  · by_cases he : o.getD x "" = d.getD y ""
    · exact Or.inr (Or.inr (Or.inl ⟨he, _, by rw [h, t_delta_eq_of_eq _ he]⟩))
    · exact Or.inr (Or.inr (Or.inr ⟨_, by rw [h, t_delta_eq_of_ne _ he]⟩))

theorem traceback_origin (M : Mat) (fuel : Nat) : traceback M fuel 0 0 = some [] := by
  cases fuel <;> simp [traceback]

theorem traceback_succ_ins {M : Mat} {fuel x y : Nat} {c : Nat} {s : Str}
    (hxy : ¬(x = 0 ∧ y = 0)) (hc : M x y = Transformation.Insertion c s) :
    traceback M (fuel + 1) x y
      = (traceback M fuel x (y - 1)).map (Transformation.Insertion c s :: ·) := by
  rw [traceback, if_neg hxy]
  simp only [value_at, hc]

theorem traceback_succ_del {M : Mat} {fuel x y : Nat} {c : Nat} {s : Str}
    (hxy : ¬(x = 0 ∧ y = 0)) (hc : M x y = Transformation.Deletion c s) :
    traceback M (fuel + 1) x y
      = (traceback M fuel (x - 1) y).map (Transformation.Deletion c s :: ·) := by
  rw [traceback, if_neg hxy]
  simp only [value_at, hc]

theorem traceback_succ_eq {M : Mat} {fuel x y : Nat} {c : Nat} {s : Str}
    (hxy : ¬(x = 0 ∧ y = 0)) (hc : M x y = Transformation.Equality c s) :
    traceback M (fuel + 1) x y
      = (traceback M fuel (x - 1) (y - 1)).map (Transformation.Equality c s :: ·) := by
  rw [traceback, if_neg hxy]
  simp only [value_at, hc]

theorem traceback_succ_sub {M : Mat} {fuel x y : Nat} {c : Nat} {s u : Str}
    (hxy : ¬(x = 0 ∧ y = 0)) (hc : M x y = Transformation.Substitution c s u) :
    traceback M (fuel + 1) x y
      = (traceback M fuel (x - 1) (y - 1)).map (Transformation.Substitution c s u :: ·) := by
  rw [traceback, if_neg hxy]
  simp only [value_at, hc]

/-- The walk over a correctly filled matrix succeeds and its emissions spell
exactly the two prefixes (in reversed order), contain no `Init`, and number
between `max x y` and `x + y`. -/
theorem traceback_ok (o d : List Str) (M : Mat)
    (hM : ∀ a b, a ≤ o.length → b ≤ d.length → M a b = mcell o d a b) :
    ∀ (fuel x y : Nat), x ≤ o.length → y ≤ d.length → x + y ≤ fuel →
      ∃ l, traceback M fuel x y = some l ∧
        l.filterMap originTok = (o.take x).reverse ∧
        l.filterMap destTok = (d.take y).reverse ∧
        max x y ≤ l.length ∧ l.length ≤ x + y ∧
        ∀ tr ∈ l, tr.isInit = false := by
  intro fuel
  induction fuel with
  | zero =>
    intro x y hx hy hf
    obtain rfl : x = 0 := by omega
    obtain rfl : y = 0 := by omega
    exact ⟨[], traceback_origin M 0, by simp, by simp, by simp, by simp, by simp⟩
  | succ fuel ih =>
    intro x y hx hy hf
    match x, y with
    | 0, 0 =>
      exact ⟨[], traceback_origin M (fuel + 1), by simp, by simp, by simp, by simp, by simp⟩
    | 0, y + 1 =>
      have hc : M 0 (y + 1) = Transformation.Insertion (y + 1) (d.getD y "") := by
        rw [hM 0 (y + 1) (by omega) hy, mcell_zero_succ]
      obtain ⟨l, hl, ho, hd, hmax, hlen, hin⟩ := ih 0 y (by omega) (by omega) (by omega)
      refine ⟨Transformation.Insertion (y + 1) (d.getD y "") :: l, ?_, ?_, ?_, ?_, ?_, ?_⟩
      · rw [traceback_succ_ins (by omega) hc]
        simp only [Nat.add_sub_cancel, hl, Option.map_some']
      · simpa [originTok] using ho
      · rw [take_reverse_getD d y (by omega)]
        simpa [destTok] using hd
      · simp only [List.length_cons]; omega
      · simp only [List.length_cons]; omega
      · intro tr htr
        rcases List.mem_cons.mp htr with rfl | h
        · rfl
        · exact hin tr h
    | x + 1, 0 =>
      have hc : M (x + 1) 0 = Transformation.Deletion (x + 1) (o.getD x "") := by
        rw [hM (x + 1) 0 hx (by omega), mcell_succ_zero]
      obtain ⟨l, hl, ho, hd, hmax, hlen, hin⟩ := ih x 0 (by omega) (by omega) (by omega)
      refine ⟨Transformation.Deletion (x + 1) (o.getD x "") :: l, ?_, ?_, ?_, ?_, ?_, ?_⟩
      · rw [traceback_succ_del (by omega) hc]
        simp only [Nat.add_sub_cancel, hl, Option.map_some']
      · rw [take_reverse_getD o x (by omega)]
        simpa [originTok] using ho
      · simpa [destTok] using hd
      · simp only [List.length_cons]; omega
      · simp only [List.length_cons]; omega
      · intro tr htr
        rcases List.mem_cons.mp htr with rfl | h
        · rfl
        · exact hin tr h
    | x + 1, y + 1 =>
      have hc : M (x + 1) (y + 1) = mcell o d (x + 1) (y + 1) := hM _ _ hx hy
      rcases mcell_interior_shape o d x y with ⟨c, hcell⟩ | ⟨c, hcell⟩ | ⟨heq, c, hcell⟩ | ⟨c, hcell⟩
      · obtain ⟨l, hl, ho, hd, hmax, hlen, hin⟩ := ih x (y + 1) (by omega) hy (by omega)
        refine ⟨Transformation.Deletion c (o.getD x "") :: l, ?_, ?_, ?_, ?_, ?_, ?_⟩
        · rw [traceback_succ_del (by omega) (hc.trans hcell)]
          simp only [Nat.add_sub_cancel, hl, Option.map_some']
        · rw [take_reverse_getD o x (by omega)]
          simpa [originTok] using ho
        · simpa [destTok] using hd
        · simp only [List.length_cons]; omega
        · simp only [List.length_cons]; omega
        · intro tr htr
          rcases List.mem_cons.mp htr with rfl | h
          · rfl
          · exact hin tr h
      · obtain ⟨l, hl, ho, hd, hmax, hlen, hin⟩ := ih (x + 1) y hx (by omega) (by omega)
        refine ⟨Transformation.Insertion c (d.getD y "") :: l, ?_, ?_, ?_, ?_, ?_, ?_⟩
        · rw [traceback_succ_ins (by omega) (hc.trans hcell)]
          simp only [Nat.add_sub_cancel, hl, Option.map_some']
        · simpa [originTok] using ho
        · rw [take_reverse_getD d y (by omega)]
          simpa [destTok] using hd
        · simp only [List.length_cons]; omega
        · simp only [List.length_cons]; omega
        · intro tr htr
          rcases List.mem_cons.mp htr with rfl | h
          · rfl
          · exact hin tr h
      · obtain ⟨l, hl, ho, hd, hmax, hlen, hin⟩ := ih x y (by omega) (by omega) (by omega)
        refine ⟨Transformation.Equality c (d.getD y "") :: l, ?_, ?_, ?_, ?_, ?_, ?_⟩
        · rw [traceback_succ_eq (by omega) (hc.trans hcell)]
          simp only [Nat.add_sub_cancel, hl, Option.map_some']
        · rw [take_reverse_getD o x (by omega), ← heq]
          simpa [originTok] using ho
        · rw [take_reverse_getD d y (by omega)]
          simpa [destTok] using hd
        · simp only [List.length_cons]; omega
        · simp only [List.length_cons]; omega
        · intro tr htr
          rcases List.mem_cons.mp htr with rfl | h
          · rfl
          · exact hin tr h
      · obtain ⟨l, hl, ho, hd, hmax, hlen, hin⟩ := ih x y (by omega) (by omega) (by omega)
        refine ⟨Transformation.Substitution c (o.getD x "") (d.getD y "") :: l, ?_, ?_, ?_, ?_, ?_, ?_⟩
        · rw [traceback_succ_sub (by omega) (hc.trans hcell)]
          simp only [Nat.add_sub_cancel, hl, Option.map_some']
        · rw [take_reverse_getD o x (by omega)]
          simpa [originTok] using ho
        · rw [take_reverse_getD d y (by omega)]
          simpa [destTok] using hd
        · simp only [List.length_cons]; omega
        · simp only [List.length_cons]; omega
        · intro tr htr
          rcases List.mem_cons.mp htr with rfl | h
          · rfl
          · exact hin tr h

/-! ## `raw_edits` on a fresh instance -/

/-- `raw_edits` never faults, spells both token sequences exactly, produces
between `max n m` and `n + m` edits, and emits no `Init`. -/
theorem raw_edits_ok (o d : List Str) :
    ∃ l, rawEditsOf o d = some l ∧
      l.filterMap originTok = o ∧
      l.filterMap destTok = d ∧
      max o.length d.length ≤ l.length ∧ l.length ≤ o.length + d.length ∧
      ∀ tr ∈ l, tr.isInit = false := by
  obtain ⟨l, hl, ho, hd, hmax, hlen, hin⟩ :=
    traceback_ok o d (builtMatrix o d) (fun a b ha hb => builtMatrix_eq o d ha hb)
      (o.length + d.length) o.length d.length le_rfl le_rfl le_rfl
  refine ⟨l.reverse, ?_, ?_, ?_, ?_, ?_, ?_⟩
  · show (traceback (builtMatrix o d) (o.length + d.length) o.length d.length).map
      List.reverse = some l.reverse
    rw [hl]
    rfl
  · rw [List.filterMap_reverse, ho, List.take_length, List.reverse_reverse]
  · rw [List.filterMap_reverse, hd, List.take_length, List.reverse_reverse]
  · simpa using hmax
  · simpa using hlen
  · intro tr htr
    exact hin tr (List.mem_reverse.mp htr)

/-! ## The grouper -/

theorem t_ne_zero_of_not_init {tr : Transformation} (h : tr.isInit = false) : tr.t ≠ 0 := by
  cases tr <;> simp_all [Transformation.isInit, Transformation.t]

theorem t_mem (tr : Transformation) :
    tr.t = 0 ∨ tr.t = 1 ∨ tr.t = 2 ∨ tr.t = 3 ∨ tr.t = 4 := by
  cases tr <;> simp [Transformation.t]

theorem pushBins_eq {tr : Transformation} (h : tr.t ≠ 0) (bin sbin : List Str) :
    pushBins tr bin sbin
      = some (bin ++ (binTok tr).toList, sbin ++ (subTok tr).toList) := by
  cases tr <;> simp_all [pushBins, binTok, subTok, Transformation.t]

theorem inner_while_eq {ct : Nat} (hct : ct ≠ 0) :
    ∀ (l : List Transformation) (bin sbin : List Str),
      inner_while ct l bin sbin = some
        (l.dropWhile (fun r => r.t = ct),
         bin ++ (l.takeWhile (fun r => r.t = ct)).filterMap binTok,
         sbin ++ (l.takeWhile (fun r => r.t = ct)).filterMap subTok) := by
  intro l
  induction l with
  | nil => intro bin sbin; simp [inner_while]
  | cons r rest ih =>
    intro bin sbin
    by_cases h : r.t = ct
    · rw [inner_while, if_pos h, pushBins_eq (h ▸ hct)]
      dsimp only
      rw [ih]
      simp [List.takeWhile_cons, List.dropWhile_cons, h, List.filterMap_cons]
      constructor
      · cases hm : binTok r <;> simp [hm]
      · cases hm : subTok r <;> simp [hm]
    · rw [inner_while, if_neg h]
      simp [List.takeWhile_cons, List.dropWhile_cons, h]

theorem flushRun_eq {ct : Nat} (h : ct = 1 ∨ ct = 2 ∨ ct = 3 ∨ ct = 4)
    (bin sbin : List Str) : flushRun ct bin sbin = some (mkEditD ct bin sbin) := by
  rcases h with rfl | rfl | rfl | rfl <;> rfl

theorem outer_while_nil (fuel ct : Nat) (bin sbin : List Str) (grouped : List Edit) :
    outer_while fuel ct [] bin sbin grouped = some grouped := by
  cases fuel <;> rfl

theorem mkEditD_kind {ct : Nat} (h : ct = 1 ∨ ct = 2 ∨ ct = 3 ∨ ct = 4)
    (bin sbin : List Str) : (mkEditD ct bin sbin).kind = ct := by
  rcases h with rfl | rfl | rfl | rfl <;> rfl

theorem runGroups_cons (r : Transformation) (rest : List Transformation) :
    runGroups (r :: rest)
      = mkEditD r.t ((r :: rest.takeWhile (fun s => s.t = r.t)).filterMap binTok)
          ((r :: rest.takeWhile (fun s => s.t = r.t)).filterMap subTok)
        :: runGroups (rest.dropWhile (fun s => s.t = r.t)) := by
  rw [runGroups]

theorem outer_while_eq :
    ∀ (fuel : Nat) (r : Transformation) (rtail : List Transformation) (ct : Nat)
      (bin sbin : List Str) (grouped : List Edit),
      (∀ tr ∈ r :: rtail, tr.t ≠ 0) →
      (ct = 1 ∨ ct = 2 ∨ ct = 3 ∨ ct = 4) →
      2 * (r :: rtail).length + (if r.t = ct then 0 else 1) ≤ fuel →
      outer_while fuel ct (r :: rtail) bin sbin grouped
        = some (grouped ++
            mkEditD ct (bin ++ ((r :: rtail).takeWhile (fun s => s.t = ct)).filterMap binTok)
              (sbin ++ ((r :: rtail).takeWhile (fun s => s.t = ct)).filterMap subTok)
            :: runGroups ((r :: rtail).dropWhile (fun s => s.t = ct))) := by
  intro fuel
  induction fuel with
  | zero =>
    intro r rtail ct bin sbin grouped hmem hct hf
    exfalso
    simp only [List.length_cons] at hf
    split at hf <;> omega
  | succ fuel ih =>
    intro r rtail ct bin sbin grouped hmem hct hf
    have hct0 : ct ≠ 0 := by rcases hct with rfl | rfl | rfl | rfl <;> omega
    rw [outer_while]
    dsimp only
    rw [inner_while_eq hct0]
    dsimp only
    rw [flushRun_eq hct]
    dsimp only
    by_cases hr : r.t = ct
    · -- the head continues the current run
      rw [List.dropWhile_cons, if_pos (by simpa using hr)]
      cases hrest' : rtail.dropWhile (fun s => s.t = ct) with
      | nil =>
        dsimp only
        rw [outer_while_nil]
        simp [runGroups]
      | cons r' rtail' =>
        have hsub : (rtail.dropWhile (fun s => s.t = ct)).length ≤ rtail.length :=
          List.Sublist.length_le (List.dropWhile_sublist _)
        rw [hrest'] at hsub
        simp only [List.length_cons] at hsub
        have hmem' : ∀ tr ∈ r' :: rtail', tr.t ≠ 0 := by
          intro tr htr
          apply hmem
          have : tr ∈ rtail.dropWhile (fun s => s.t = ct) := hrest' ▸ htr
          exact List.mem_cons_of_mem r ((List.dropWhile_sublist _).subset this)
        have hr't : r'.t ≠ 0 := hmem' r' (List.mem_cons_self _ _)
        have hct' : r'.t = 1 ∨ r'.t = 2 ∨ r'.t = 3 ∨ r'.t = 4 := by
          rcases t_mem r' with h0 | h | h | h | h
          · exact absurd h0 hr't
          all_goals tauto
        have hfuel' : 2 * (r' :: rtail').length + (if r'.t = r'.t then 0 else 1) ≤ fuel := by
          rw [if_pos rfl]
          simp only [List.length_cons] at hf ⊢
          rw [if_pos hr] at hf
          omega
        dsimp only
        rw [ih r' rtail' r'.t [] [] _ hmem' hct' hfuel']
        simp [List.takeWhile_cons, List.dropWhile_cons, runGroups_cons, List.append_assoc]
    · -- the head starts a new run: flush and continue with current_t = r.t
      have hrt : r.t ≠ 0 := hmem r (List.mem_cons_self _ _)
      have hctr : r.t = 1 ∨ r.t = 2 ∨ r.t = 3 ∨ r.t = 4 := by
        rcases t_mem r with h0 | h | h | h | h
        · exact absurd h0 hrt
        all_goals tauto
      have hfuel' : 2 * (r :: rtail).length + (if r.t = r.t then 0 else 1) ≤ fuel := by
        rw [if_pos rfl]
        simp only [List.length_cons] at hf ⊢
        rw [if_neg hr] at hf
        omega
      rw [List.dropWhile_cons, if_neg (by simpa using hr)]
      rw [ih r rtail r.t [] [] _ hmem hctr hfuel']
      simp [List.takeWhile_cons, List.dropWhile_cons, hr, runGroups_cons, List.append_assoc]

theorem filterMap_cons_toList {α β : Type} (f : α → Option β) (a : α) (l : List α) :
    List.filterMap f (a :: l) = (f a).toList ++ List.filterMap f l := by
  cases h : f a <;> simp [List.filterMap_cons, h]

theorem grouped_core_nil : grouped_core [] = none := rfl

theorem grouped_core_single {r : Transformation} (h : r.t ≠ 0) :
    grouped_core [r] = some [] := by
  simp only [grouped_core]
  rw [pushBins_eq h]
  dsimp only
  exact outer_while_nil _ _ _ _ _

theorem grouped_core_cons {r r2 : Transformation} {rtail : List Transformation}
    (h : ∀ tr ∈ r :: r2 :: rtail, tr.t ≠ 0) :
    grouped_core (r :: r2 :: rtail) = some (runGroups (r :: r2 :: rtail)) := by
  have hrt : r.t ≠ 0 := h r (List.mem_cons_self _ _)
  have hctr : r.t = 1 ∨ r.t = 2 ∨ r.t = 3 ∨ r.t = 4 := by
    rcases t_mem r with h0 | hh | hh | hh | hh
    · exact absurd h0 hrt
    all_goals tauto
  simp only [grouped_core]
  rw [pushBins_eq hrt]
  dsimp only
  rw [outer_while_eq (2 * (r :: r2 :: rtail).length + 1) r2 rtail r.t _ _ []
    (fun tr htr => h tr (List.mem_cons_of_mem r htr)) hctr
    (by simp only [List.length_cons]; split <;> omega)]
  rw [runGroups_cons]
  simp [filterMap_cons_toList]

theorem dropWhile_head_not {α : Type} (p : α → Bool) :
    ∀ (l : List α) {r : α} {rest : List α}, l.dropWhile p = r :: rest → p r = false := by
  intro l
  induction l with
  | nil =>
    intro r rest h
    simp at h
  | cons a l ih =>
    intro r rest h
    rw [List.dropWhile_cons] at h
    by_cases hp : p a = true
    · rw [if_pos hp] at h
      exact ih h
    · rw [if_neg hp] at h
      injection h with h1 h2
      subst h1
      simpa using hp

theorem runGroups_chain : ∀ (N : Nat) (l : List Transformation), l.length ≤ N →
    (∀ tr ∈ l, tr.t ≠ 0) →
    List.Chain' (fun a b => Edit.kind a ≠ Edit.kind b) (runGroups l) ∧
    (∀ r rest, l = r :: rest → ∃ g rest2, runGroups l = g :: rest2 ∧ g.kind = r.t) := by
  intro N
  induction N with
  | zero =>
    intro l hN hmem
    have hl : l = [] := List.length_eq_zero.mp (by omega)
    subst hl
    refine ⟨by simp [runGroups], ?_⟩
    intro r rest h
    simp at h
  | succ N ih =>
    intro l hN hmem
    cases l with
    | nil =>
      refine ⟨by simp [runGroups], ?_⟩
      intro r rest h
      simp at h
    | cons r rest =>
      have hrt : r.t ≠ 0 := hmem r (List.mem_cons_self _ _)
      have hctr : r.t = 1 ∨ r.t = 2 ∨ r.t = 3 ∨ r.t = 4 := by
        rcases t_mem r with h0 | hh | hh | hh | hh
        · exact absurd h0 hrt
        all_goals tauto
      have hsubl : (rest.dropWhile (fun s => s.t = r.t)).Sublist rest :=
        List.dropWhile_sublist _
      have hmem' : ∀ tr ∈ rest.dropWhile (fun s => s.t = r.t), tr.t ≠ 0 :=
        fun tr htr => hmem tr (List.mem_cons_of_mem r (hsubl.subset htr))
      have hlen' : (rest.dropWhile (fun s => s.t = r.t)).length ≤ N := by
        have := hsubl.length_le
        simp only [List.length_cons] at hN
        omega
      obtain ⟨hchain', hhead'⟩ := ih (rest.dropWhile (fun s => s.t = r.t)) hlen' hmem'
      rw [runGroups_cons]
      constructor
      · cases hrg : runGroups (rest.dropWhile (fun s => s.t = r.t)) with
        | nil => exact List.chain'_singleton _
        | cons g' gs =>
          rw [List.chain'_cons]
          refine ⟨?_, hrg ▸ hchain'⟩
          cases hrest2 : rest.dropWhile (fun s => s.t = r.t) with
          | nil => rw [hrest2] at hrg; simp [runGroups] at hrg
          | cons r2 rest2 =>
            obtain ⟨g, rest3, hg, hgk⟩ := hhead' r2 rest2 hrest2
            rw [hrest2] at hg
            rw [hrest2, hg] at hrg
            injection hrg with hg1 hg2
            have hne : r2.t ≠ r.t := by
              have := dropWhile_head_not (fun s => decide (s.t = r.t)) rest hrest2
              simpa using this
            rw [mkEditD_kind hctr, ← hg1, hgk]
            exact fun hc => hne hc.symm
      · intro r0 rest0 heq
        injection heq with h1 h2
        subst h1
        exact ⟨_, _, rfl, mkEditD_kind hctr _ _⟩

/-! ## Reconstruction of the two texts from the grouped edits -/

theorem binTok_eq_originTok {tr : Transformation}
    (h : tr.t = 1 ∨ tr.t = 2 ∨ tr.t = 4) : binTok tr = originTok tr := by
  cases tr <;> simp_all [Transformation.t, binTok, originTok]

theorem binTok_eq_destTok {tr : Transformation}
    (h : tr.t = 1 ∨ tr.t = 3) : binTok tr = destTok tr := by
  cases tr <;> simp_all [Transformation.t, binTok, destTok]

theorem subTok_eq_destTok {tr : Transformation} (h : tr.t = 4) :
    subTok tr = destTok tr := by
  cases tr <;> simp_all [Transformation.t, subTok, destTok]

theorem originTok_ins_none {tr : Transformation} (h : tr.t = 3) :
    originTok tr = none := by
  cases tr <;> simp_all [Transformation.t, originTok]

theorem destTok_del_none {tr : Transformation} (h : tr.t = 2) :
    destTok tr = none := by
  cases tr <;> simp_all [Transformation.t, destTok]

theorem foldl_append_str : ∀ (l : List String) (a : String),
    l.foldl (fun r s => r ++ s) a = a ++ l.foldl (fun r s => r ++ s) "" := by
  intro l
  induction l with
  | nil =>
    intro a
    simp [String.append_empty]
  | cons s l ih =>
    intro a
    simp only [List.foldl_cons]
    rw [ih (a ++ s), ih ("" ++ s), String.empty_append, String.append_assoc]

theorem join_cons (s : String) (l : List String) :
    String.join (s :: l) = s ++ String.join l := by
  show (s :: l).foldl (fun r s => r ++ s) "" = s ++ l.foldl (fun r s => r ++ s) ""
  rw [List.foldl_cons, String.empty_append, foldl_append_str l s]

theorem join_append (a b : List String) :
    String.join (a ++ b) = String.join a ++ String.join b := by
  induction a with
  | nil =>
    simp only [List.nil_append]
    rw [show String.join [] = "" from rfl, String.empty_append]
  | cons s a ih =>
    simp only [List.cons_append, join_cons, ih, String.append_assoc]

theorem run_origin_text {ct : Nat} (hct : ct = 1 ∨ ct = 2 ∨ ct = 3 ∨ ct = 4)
    (run : List Transformation) (hrun : ∀ tr ∈ run, tr.t = ct) :
    originSide (mkEditD ct (run.filterMap binTok) (run.filterMap subTok))
      = String.join (run.filterMap originTok) := by
  rcases hct with rfl | rfl | rfl | rfl
  · show String.join (run.filterMap binTok) = _
    rw [List.filterMap_congr (fun tr htr => binTok_eq_originTok (Or.inl (hrun tr htr)))]
  · show String.join (run.filterMap binTok) = _
    rw [List.filterMap_congr (fun tr htr => binTok_eq_originTok (Or.inr (Or.inl (hrun tr htr))))]
  · show "" = _
    have hnil : run.filterMap originTok = [] :=
      List.filterMap_eq_nil_iff.mpr (fun tr htr => originTok_ins_none (hrun tr htr))
    rw [hnil]
    rfl
  · show String.join (run.filterMap binTok) = _
    rw [List.filterMap_congr (fun tr htr => binTok_eq_originTok (Or.inr (Or.inr (hrun tr htr))))]

theorem run_dest_text {ct : Nat} (hct : ct = 1 ∨ ct = 2 ∨ ct = 3 ∨ ct = 4)
    (run : List Transformation) (hrun : ∀ tr ∈ run, tr.t = ct) :
    destSide (mkEditD ct (run.filterMap binTok) (run.filterMap subTok))
      = String.join (run.filterMap destTok) := by
  rcases hct with rfl | rfl | rfl | rfl
  · show String.join (run.filterMap binTok) = _
    rw [List.filterMap_congr (fun tr htr => binTok_eq_destTok (Or.inl (hrun tr htr)))]
  · show "" = _
    have hnil : run.filterMap destTok = [] :=
      List.filterMap_eq_nil_iff.mpr (fun tr htr => destTok_del_none (hrun tr htr))
    rw [hnil]
    rfl
  · show String.join (run.filterMap binTok) = _
    rw [List.filterMap_congr (fun tr htr => binTok_eq_destTok (Or.inr (hrun tr htr)))]
  · show String.join (run.filterMap subTok) = _
    rw [List.filterMap_congr (fun tr htr => subTok_eq_destTok (hrun tr htr))]

theorem runGroups_origin_text : ∀ (N : Nat) (l : List Transformation), l.length ≤ N →
    (∀ tr ∈ l, tr.t ≠ 0) →
    String.join ((runGroups l).map originSide) = String.join (l.filterMap originTok) := by
  intro N
  induction N with
  | zero =>
    intro l hN hmem
    have hl : l = [] := List.length_eq_zero.mp (by omega)
    subst hl
    simp [runGroups]
  | succ N ih =>
    intro l hN hmem
    cases l with
    | nil => simp [runGroups]
    | cons r rest =>
      have hrt : r.t ≠ 0 := hmem r (List.mem_cons_self _ _)
      have hctr : r.t = 1 ∨ r.t = 2 ∨ r.t = 3 ∨ r.t = 4 := by
        rcases t_mem r with h0 | hh | hh | hh | hh
        · exact absurd h0 hrt
        all_goals tauto
      have hsubl : (rest.dropWhile (fun s => s.t = r.t)).Sublist rest :=
        List.dropWhile_sublist _
      have hmem' : ∀ tr ∈ rest.dropWhile (fun s => s.t = r.t), tr.t ≠ 0 :=
        fun tr htr => hmem tr (List.mem_cons_of_mem r (hsubl.subset htr))
      have hlen' : (rest.dropWhile (fun s => s.t = r.t)).length ≤ N := by
        have := hsubl.length_le
        simp only [List.length_cons] at hN
        omega
      have hrun : ∀ tr ∈ r :: rest.takeWhile (fun s => s.t = r.t), tr.t = r.t := by
        intro tr htr
        rcases List.mem_cons.mp htr with rfl | htr'
        · rfl
        · exact of_decide_eq_true
            (List.mem_takeWhile_imp (p := fun (s : Transformation) => decide (s.t = r.t)) htr')
      rw [runGroups_cons, List.map_cons, join_cons,
        run_origin_text hctr _ hrun,
        ih _ hlen' hmem']
      conv_rhs =>
        rw [show (r :: rest) = (r :: rest.takeWhile (fun s => s.t = r.t))
            ++ rest.dropWhile (fun s => s.t = r.t) from by
          rw [List.cons_append, List.takeWhile_append_dropWhile]]
      rw [List.filterMap_append, join_append]

theorem runGroups_dest_text : ∀ (N : Nat) (l : List Transformation), l.length ≤ N →
    (∀ tr ∈ l, tr.t ≠ 0) →
    String.join ((runGroups l).map destSide) = String.join (l.filterMap destTok) := by
  intro N
  induction N with
  | zero =>
    intro l hN hmem
    have hl : l = [] := List.length_eq_zero.mp (by omega)
    subst hl
    simp [runGroups]
  | succ N ih =>
    intro l hN hmem
    cases l with
    | nil => simp [runGroups]
    | cons r rest =>
      have hrt : r.t ≠ 0 := hmem r (List.mem_cons_self _ _)
      have hctr : r.t = 1 ∨ r.t = 2 ∨ r.t = 3 ∨ r.t = 4 := by
        rcases t_mem r with h0 | hh | hh | hh | hh
        · exact absurd h0 hrt
        all_goals tauto
      have hsubl : (rest.dropWhile (fun s => s.t = r.t)).Sublist rest :=
        List.dropWhile_sublist _
      have hmem' : ∀ tr ∈ rest.dropWhile (fun s => s.t = r.t), tr.t ≠ 0 :=
        fun tr htr => hmem tr (List.mem_cons_of_mem r (hsubl.subset htr))
      have hlen' : (rest.dropWhile (fun s => s.t = r.t)).length ≤ N := by
        have := hsubl.length_le
        simp only [List.length_cons] at hN
        omega
      have hrun : ∀ tr ∈ r :: rest.takeWhile (fun s => s.t = r.t), tr.t = r.t := by
        intro tr htr
        rcases List.mem_cons.mp htr with rfl | htr'
        · rfl
        · exact of_decide_eq_true
            (List.mem_takeWhile_imp (p := fun (s : Transformation) => decide (s.t = r.t)) htr')
      rw [runGroups_cons, List.map_cons, join_cons,
        run_dest_text hctr _ hrun,
        ih _ hlen' hmem']
      conv_rhs =>
        rw [show (r :: rest) = (r :: rest.takeWhile (fun s => s.t = r.t))
            ++ rest.dropWhile (fun s => s.t = r.t) from by
          rw [List.cons_append, List.takeWhile_append_dropWhile]]
      rw [List.filterMap_append, join_append]

/-! ## Assembling the public operations -/

theorem groupedEditsOf_eq_core (o d : List Str) :
    groupedEditsOf o d = (match rawEditsOf o d with
      | none => none
      | some raw => grouped_core raw) := rfl

theorem encodedEditsOf_eq (o d : List Str) (encoder : Edit → String) :
    encodedEditsOf o d encoder
      = (groupedEditsOf o d).map (fun grouped => String.join (grouped.map (fun g => encoder g))) :=
  rfl

theorem distance_requery (L : Levenshtein) :
    Levenshtein.distance ((Levenshtein.distance L).2) = Levenshtein.distance L := by
  unfold Levenshtein.distance
  dsimp only
  rw [build_idem L]
  rfl

theorem raw_edits_requery (L : Levenshtein) :
    Levenshtein.raw_edits ((Levenshtein.distance L).2) = Levenshtein.raw_edits L := by
  unfold Levenshtein.raw_edits Levenshtein.distance
  dsimp only
  rw [build_idem L]
  rfl

/-- Whenever the raw edit sequence has at least two elements, the grouped
edits reconstruct both texts exactly (the general reconstruction law; it
fails only for raw sequences of length 0, which fault, and length 1, where
the grouper returns no group at all). -/
theorem grouped_reconstruction (o d : List Str) {l : List Transformation} {g : List Edit}
    (hraw : rawEditsOf o d = some l) (hlen : 2 ≤ l.length)
    (hg : groupedEditsOf o d = some g) :
    String.join (g.map originSide) = String.join o ∧
    String.join (g.map destSide) = String.join d := by
  obtain ⟨l0, hraw0, ho, hd, hmax, hlen0, hin⟩ := raw_edits_ok o d
  rw [hraw0] at hraw
  injection hraw with he
  subst he
  have hmem : ∀ tr ∈ l0, tr.t ≠ 0 := fun tr htr => t_ne_zero_of_not_init (hin tr htr)
  have hcore : groupedEditsOf o d = grouped_core l0 := by
    rw [groupedEditsOf_eq_core, hraw0]
  match l0, hlen, hmem, ho, hd, hcore with
  | r :: r2 :: rtail, _, hmem, ho, hd, hcore =>
    rw [hcore, grouped_core_cons hmem] at hg
    injection hg with he2
    subst he2
    constructor
    · rw [runGroups_origin_text (r :: r2 :: rtail).length _ le_rfl hmem, ho]
    · rw [runGroups_dest_text (r :: r2 :: rtail).length _ le_rfl hmem, hd]

/-! ## The claims -/

/-- C1: the claim states that an equal-cost Insertion/Deletion tie (both
strictly below the Substitution/Equality candidate) is resolved to Deletion.
The code resolves it to Insertion: at source line 170 `calculate_matrix`
calls `t_min_3(&deletion, &insertion, &sub_or_eq)` although the parameters of
`t_min_3` (line 288) are `(insertion, deletion, sub_or_eq)`, so the strict
comparison is applied to the deletion candidate and ties go to the insertion
candidate.  Evaluation at origin tokens ["a","b","a"], dest tokens
["b","a","b"], cell (3,3): the deletion candidate costs 2, the insertion
candidate costs 2, the substitution candidate costs 3, and the stored cell is
the Insertion — not the Deletion the claim requires. -/
theorem claim_C1_tie_goes_to_insertion :
    (builtMatrix ["a", "b", "a"] ["b", "a", "b"] 2 3).cost + 1 = 2 ∧
    (builtMatrix ["a", "b", "a"] ["b", "a", "b"] 3 2).cost + 1 = 2 ∧
    (t_delta ((builtMatrix ["a", "b", "a"] ["b", "a", "b"] 2 2).cost) "a" "b").cost = 3 ∧
    builtMatrix ["a", "b", "a"] ["b", "a", "b"] 3 3 = Transformation.Insertion 2 "b" ∧
    builtMatrix ["a", "b", "a"] ["b", "a", "b"] 3 3 ≠ Transformation.Deletion 2 "a" := by
  refine ⟨by rfl, by rfl, by rfl, by rfl, by decide⟩

/-- C2 counterexample: `grouped_edits` applied to two empty texts reads
`raw[0]` of the empty raw-edit sequence (source line 220) — an out-of-bounds
access, modelled as `none` — rather than completing without a fault. -/
theorem claim_C2_counterexample : groupedEditsOf [] [] = none := rfl

/-- C2 (amended): `distance` and `raw_edits` are total on all well-formed
token sequences including empty ones, and `grouped_edits`/`encoded_edits`
return normally on every input pair except two empty sequences, where the
unchecked first-element access faults. -/
theorem claim_C2_totality :
    ∀ o d : List Str,
      (∃ l, rawEditsOf o d = some l) ∧
      (o ≠ [] ∨ d ≠ [] →
        (∃ g, groupedEditsOf o d = some g) ∧
        ∀ encoder : Edit → String, ∃ s, encodedEditsOf o d encoder = some s) := by
  intro o d
  obtain ⟨l, hraw, ho, hd, hmax, hlen, hin⟩ := raw_edits_ok o d
  have hmem : ∀ tr ∈ l, tr.t ≠ 0 := fun tr htr => t_ne_zero_of_not_init (hin tr htr)
  refine ⟨⟨l, hraw⟩, ?_⟩
  intro hne
  have hcore : groupedEditsOf o d = grouped_core l := by
    rw [groupedEditsOf_eq_core, hraw]
  have hlen1 : 1 ≤ l.length := by
    have hpos : 1 ≤ o.length ∨ 1 ≤ d.length := by
      rcases hne with h | h
      · exact Or.inl (List.length_pos.mpr h)
      · exact Or.inr (List.length_pos.mpr h)
    omega
  obtain ⟨g, hg⟩ : ∃ g, grouped_core l = some g := by
    match l, hlen1 with
    | [r], _ => exact ⟨[], grouped_core_single (hmem r (List.mem_cons_self _ _))⟩
    | r :: r2 :: rtail, _ => exact ⟨_, grouped_core_cons hmem⟩
  refine ⟨⟨g, by rw [hcore, hg]⟩, ?_⟩
  intro encoder
  refine ⟨String.join (g.map (fun e => encoder e)), ?_⟩
  rw [encodedEditsOf_eq, hcore, hg]
  rfl

/-- C2 witness: at origin ["a"], dest [], every operation returns normally. -/
theorem claim_C2_totality_witness :
    (∃ l, rawEditsOf ["a"] [] = some l) ∧
    (∃ g, groupedEditsOf ["a"] [] = some g) ∧
    ∀ encoder : Edit → String, ∃ s, encodedEditsOf ["a"] [] encoder = some s :=
  ⟨(claim_C2_totality ["a"] []).1,
   (claim_C2_totality ["a"] []).2 (Or.inl (by decide))⟩

/-- C3: after initialization and the DP recurrence, the cost stored at every
cell `(x, y)` of the built matrix is the minimum edit distance (unit
insert/delete/substitute costs, as captured by the `Aligns` edit-script
relation) between `origin[0..x)` and `dest[0..y)`; `distance` returns
`cell(n,m).cost`, the Levenshtein distance of the two sequences. -/
theorem claim_C3_matrix_invariant :
    ∀ o d : List Str,
      (∀ x y, x ≤ o.length → y ≤ d.length →
        IsMinEditDist (o.take x) (d.take y) ((builtMatrix o d x y).cost)) ∧
      distanceOf o d = (builtMatrix o d o.length d.length).cost ∧
      IsMinEditDist o d (distanceOf o d) := by
  intro o d
  refine ⟨?_, distanceOf_eq_built o d, isMinEditDist_distanceOf o d⟩
  intro x y hx hy
  rw [builtMatrix_eq o d hx hy]
  exact isMinEditDist_mcell o d hx hy

/-- C3 witness: instantiated at origin ["a"], dest ["b"], cell (1,1). -/
theorem claim_C3_matrix_invariant_witness :
    IsMinEditDist (List.take 1 ["a"]) (List.take 1 ["b"])
      ((builtMatrix ["a"] ["b"] 1 1).cost) :=
  (claim_C3_matrix_invariant ["a"] ["b"]).1 1 1 (by decide) (by decide)

/-- C4: the reconstruction law fails on the code.  For origin "a", dest "b"
(token lists ["a"], ["b"]) the raw edit sequence is the single substitution,
but `grouped_edits` returns the empty sequence — the final run is flushed
only inside the outer loop (source lines 233-272), which never executes when
`raw.len() == 1` — so concatenating the origin-side texts yields "" instead
of "a". -/
theorem claim_C4_reconstruction_fails :
    rawEditsOf ["a"] ["b"] = some [Transformation.Substitution 1 "a" "b"] ∧
    groupedEditsOf ["a"] ["b"] = some [] ∧
    String.join (([] : List Edit).map originSide) ≠ String.join ["a"] := by
  refine ⟨by rfl, by rfl, by decide⟩

/-- C5: `distance` is symmetric in its two texts. -/
theorem claim_C5_symmetry : ∀ o d : List Str, distanceOf o d = distanceOf d o := by
  intro o d
  have h1 := isMinEditDist_distanceOf o d
  have h2 := isMinEditDist_distanceOf d o
  exact Nat.le_antisymm (h1.2 _ (aligns_symm h2.1)) (h2.2 _ (aligns_symm h1.1))

/-- C6: `distance` satisfies the triangle inequality. -/
theorem claim_C6_triangle :
    ∀ a b c : List Str, distanceOf a c ≤ distanceOf a b + distanceOf b c := by
  intro a b c
  have hab := isMinEditDist_distanceOf a b
  have hbc := isMinEditDist_distanceOf b c
  have hac := isMinEditDist_distanceOf a c
  obtain ⟨k, hk, hA⟩ := aligns_trans hab.1 hbc.1
  exact Nat.le_trans (hac.2 k hA) hk

/-- C7: in any sequence returned by `grouped_edits`, no two adjacent grouped
edits share the same kind. -/
theorem claim_C7_no_adjacent_same_kind :
    ∀ (o d : List Str) (g : List Edit),
      groupedEditsOf o d = some g →
      List.Chain' (fun a b => Edit.kind a ≠ Edit.kind b) g := by
  intro o d g hg
  obtain ⟨l, hraw, ho, hd, hmax, hlen, hin⟩ := raw_edits_ok o d
  have hmem : ∀ tr ∈ l, tr.t ≠ 0 := fun tr htr => t_ne_zero_of_not_init (hin tr htr)
  have hcore : groupedEditsOf o d = grouped_core l := by
    rw [groupedEditsOf_eq_core, hraw]
  rw [hcore] at hg
  match l, hmem, hg with
  | [], _, hg => rw [grouped_core_nil] at hg; cases hg
  | [r], hmem, hg =>
    rw [grouped_core_single (hmem r (List.mem_cons_self _ _))] at hg
    injection hg with he
    subst he
    simp
  | r :: r2 :: rtail, hmem, hg =>
    rw [grouped_core_cons hmem] at hg
    injection hg with he
    subst he
    exact (runGroups_chain (r :: r2 :: rtail).length _ le_rfl hmem).1

/-- C7 witness: the grouped edits of (["a","b"], ["a"]) are an Equality
followed by a Deletion, and their kinds differ. -/
theorem claim_C7_witness :
    List.Chain' (fun a b => Edit.kind a ≠ Edit.kind b)
      [Edit.Equality "a", Edit.Deletion "b"] :=
  claim_C7_no_adjacent_same_kind ["a", "b"] ["a"] _ (by decide)

/-- C8: the traceback over the computed matrix never reaches the fatal
`Init` branch (the walk returns normally, `none` modelling that panic), and
the returned raw edit sequence contains no `Init` element. -/
theorem claim_C8_init_unreachable :
    ∀ o d : List Str, ∃ l, rawEditsOf o d = some l ∧ ∀ tr ∈ l, tr.isInit = false := by
  intro o d
  obtain ⟨l, hraw, _, _, _, _, hin⟩ := raw_edits_ok o d
  exact ⟨l, hraw, hin⟩

/-- C9: extensional content of the lazy-build/reuse claim.  A fresh instance
holds only `Init(0)` placeholders (no computation at construction); the state
after a `raw_edits` query equals the state after a `distance` query; and
re-querying the instance returned by a first query gives the same answers and
leaves the instance unchanged (recomputation is idempotent).  Note the code
does re-run `initialize` and `calculate_matrix` on every query (source lines
175-188); this theorem shows the rebuild writes back exactly the same matrix. -/
theorem claim_C9_requery_stable :
    ∀ o d : List Str,
      (Levenshtein.new o d).matrix = (fun _ _ => Transformation.Init 0) ∧
      (Levenshtein.raw_edits (Levenshtein.new o d)).2
        = (Levenshtein.distance (Levenshtein.new o d)).2 ∧
      Levenshtein.distance ((Levenshtein.distance (Levenshtein.new o d)).2)
        = Levenshtein.distance (Levenshtein.new o d) ∧
      Levenshtein.raw_edits ((Levenshtein.distance (Levenshtein.new o d)).2)
        = Levenshtein.raw_edits (Levenshtein.new o d) := by
  intro o d
  exact ⟨rfl, rfl, distance_requery _, raw_edits_requery _⟩

/-- C10: the raw edit sequence has length at least `max n m` and at most
`n + m` for token sequences of lengths `n` and `m`. -/
theorem claim_C10_length_bounds :
    ∀ o d : List Str, ∃ l, rawEditsOf o d = some l ∧
      max o.length d.length ≤ l.length ∧ l.length ≤ o.length + d.length := by
  intro o d
  obtain ⟨l, hraw, _, _, hmax, hlen, _⟩ := raw_edits_ok o d
  exact ⟨l, hraw, hmax, hlen⟩
